import Mathlib

/-!
Verification of the Wordle entropy solver (`src/main.py`).

The embedding models the five core functions of the source:

* `get_pattern`      — the two-pass feedback-pattern evaluator;
* `get_pattern_counts` — the pattern-frequency tally;
* `calculate_entropy`  — the Shannon-entropy scorer;
* `get_best_guess`     — the arg-max guess selector;
* `get_words_with_pattern` — the candidate filter.

Python strings are modelled as `List Char`; the feedback symbols
`'G'`/`'Y'`/`'B'` as the inductive type `Mark`.  A Python run that raises
an exception (the only possible one is an out-of-range write/read on the
hard-coded 5-cell `pattern` buffer) is modelled as `Option.none`; a normal
return of value `v` is `some v`.  `get_best_guess` can also return Python's
`None` normally (its loop body never ran), hence its `Option (Option Word)`
result type: the outer layer is the exception channel, the inner layer is
the `best_word` variable that starts as `None`.

The Python `defaultdict(int)` counters are modelled extensionally as
functions `Char → Nat` updated pointwise; the pattern-tally dict as a
`Multiset Pattern` (its entries are the patterns of positive multiplicity,
absence from the dict is multiplicity 0).  The floating-point arithmetic of
the source is modelled by exact real arithmetic (`ℝ`, `Real.logb 2`), and
the float `-inf` sentinel of `get_best_guess` by `(⊥ : EReal)`.
-/

/-- Feedback symbol for one position: Green, Yellow or Black
(`'G'`/`'Y'`/`'B'` in the source). -/
inductive Mark : Type where
  | G : Mark
  | Y : Mark
  | B : Mark
deriving DecidableEq, Repr

/-- A word, i.e. a Python string viewed as its character sequence. -/
abbrev Word : Type := List Char

/-- A feedback pattern: the joined sequence of marks. -/
abbrev Pattern : Type := List Mark

/-- Pointwise increment of a `defaultdict(int)` counter:
models `counts[c] += 1`. -/
def bump (f : Char → Nat) (c : Char) : Char → Nat :=
  fun x => if x = c then f x + 1 else f x

/-- First pass of `get_pattern` (src/main.py lines 53-57): walk
`zip(guess_word, secret_word)` with the cells of the 5-cell `pattern`
buffer; on `guess_letter == secret_letter` write `'G'` into the current
cell and bump `guess_counts[guess_letter]`.  Writing past the end of the
buffer is Python's `IndexError`, modelled as `none`. -/
def greenPass :
    List (Char × Char) → List (Option Mark) → (Char → Nat) →
    Option (List (Option Mark) × (Char → Nat))
  | [], buf, counts => some (buf, counts)
  | (g, s) :: rest, [], counts =>
    if g = s then
      none
    else
      match greenPass rest [] counts with
      | none => none
      | some (_, counts') => some ([], counts')
  | (g, s) :: rest, cell :: buf, counts =>
    if g = s then
      match greenPass rest buf (bump counts g) with
      | none => none
      | some (buf', counts') => some (some Mark.G :: buf', counts')
    else
      match greenPass rest buf counts with
      | none => none
      | some (buf', counts') => some (cell :: buf', counts')

/-- Second pass of `get_pattern` (src/main.py lines 59-67): for each
position, read `pattern[i]` (reading past the buffer end is `IndexError`,
i.e. `none`); skip Green cells; otherwise compare
`guess_counts[guess_letter] < secret_counts[guess_letter]` and write
`'Y'` (bumping the counter) or `'B'`. -/
def remainderPass :
    List (Char × Char) → List (Option Mark) → (Char → Nat) → (Char → Nat) →
    Option (List (Option Mark) × (Char → Nat))
  | [], buf, counts, _ => some (buf, counts)
  | _ :: _, [], _, _ => none
  | (g, _) :: rest, cell :: buf, counts, secretCounts =>
    if cell = some Mark.G then
      match remainderPass rest buf counts secretCounts with
      | none => none
      | some (buf', counts') => some (cell :: buf', counts')
    else
      if counts g < secretCounts g then
        match remainderPass rest buf (bump counts g) secretCounts with
        | none => none
        | some (buf', counts') => some (some Mark.Y :: buf', counts')
      else
        match remainderPass rest buf counts secretCounts with
        | none => none
        | some (buf', counts') => some (some Mark.B :: buf', counts')

/-- The pattern evaluator `get_pattern(guess_word, secret_word)`
(src/main.py lines 38-69).  `pattern = [''] * 5` is the 5-cell buffer of
`Option Mark` cells (a cell still holding `''` is `none`); the two passes
run over `zip(guess_word, secret_word)`; `secret_counts` is
`Counter(secret_word)`, i.e. `fun c => secret.count c`; the final
`''.join(pattern)` drops the untouched `''` cells, i.e. `filterMap id`.
A raised `IndexError` is the result `none`. -/
def get_pattern (guess_word secret_word : Word) : Option Pattern :=
  match greenPass (guess_word.zip secret_word) (List.replicate 5 none)
      (fun _ => 0) with
  | none => none
  | some (buf, counts) =>
    match remainderPass (guess_word.zip secret_word) buf counts
        (fun c => secret_word.count c) with
    | none => none
    | some (buf', _) => some (buf'.filterMap id)

example :
    get_pattern ['a', 'b', 'c', 'd', 'e'] ['a', 'b', 'c', 'd', 'e'] =
      some [Mark.G, Mark.G, Mark.G, Mark.G, Mark.G] := by decide

example :
    get_pattern ['a', 'a', 'b', 'b', 'b'] ['a', 'b', 'a', 'b', 'a'] =
      some [Mark.G, Mark.Y, Mark.Y, Mark.G, Mark.B] := by decide

example : get_pattern ['a', 'b'] ['a', 'b', 'c'] = some [Mark.G, Mark.G] := by
  decide

example :
    get_pattern ['a', 'b', 'c', 'd', 'e', 'f'] ['a', 'b', 'c', 'd', 'e', 'f'] =
      none := by decide

/-- The per-candidate loop body of `get_pattern_counts` (src/main.py
lines 85-87): the sequence of patterns produced by scoring `guess_word`
against each remaining secret in order; an exception raised by
`get_pattern` aborts the loop and propagates (`none`). -/
def patternsOf (guess_word : Word) : List Word → Option (List Pattern)
  | [] => some []
  | s :: rest =>
    match get_pattern guess_word s with
    | none => none
    | some p => (patternsOf guess_word rest).map (fun l => p :: l)

/-- The pattern tally `get_pattern_counts(guess_word, secret_words)`
(src/main.py lines 72-89).  The returned `defaultdict(int)` maps each
pattern to the number of secrets producing it; it is modelled
extensionally as the multiset of produced patterns: dict entries are the
patterns of positive multiplicity, a pattern absent from the dict has
multiplicity 0. -/
def get_pattern_counts (guess_word : Word) (secret_words : List Word) :
    Option (Multiset Pattern) :=
  (patternsOf guess_word secret_words).map (fun l => Multiset.ofList l)

/-- The entropy scorer `calculate_entropy(guess_word, secret_words)`
(src/main.py lines 92-112): with `n = len(secret_words)`, sum over the
tally's entries `count` the term
`(count / n) * log2 (1 / (count / n))`.  The source's double-precision
floats are modelled by exact reals. -/
noncomputable def calculate_entropy (guess_word : Word)
    (secret_words : List Word) : Option ℝ :=
  (get_pattern_counts guess_word secret_words).map (fun ps =>
    ∑ p ∈ ps.toFinset,
      ((ps.count p : ℝ) / (secret_words.length : ℝ)) *
        Real.logb 2 (1 / ((ps.count p : ℝ) / (secret_words.length : ℝ))))

/-- The loop of `get_best_guess` (src/main.py lines 127-132): thread the
`(best_entropy, best_word)` pair through the pool, replacing it whenever
`entropy > best_entropy`.  `best_entropy` starts at the float `-inf`,
modelled as `(⊥ : EReal)`; an exception from `calculate_entropy`
propagates (`none`). -/
noncomputable def bestLoop (words : List Word) :
    List Word → EReal × Option Word → Option (EReal × Option Word)
  | [], acc => some acc
  | w :: rest, acc =>
    match calculate_entropy w words with
    | none => none
    | some e =>
      bestLoop words rest
        (if ((e : ℝ) : EReal) > acc.1 then (((e : ℝ) : EReal), some w) else acc)

/-- The guess selector `get_best_guess(words)` (src/main.py lines
115-134): score every word of `words` against `words` itself and return
`best_word`.  The outer `Option` is the exception channel; the inner
`Option Word` is the `best_word` variable, which is Python's `None` when
the loop body never executed. -/
noncomputable def get_best_guess (words : List Word) : Option (Option Word) :=
  (bestLoop words words ((⊥ : EReal), none)).map (fun acc => acc.2)

/-- The candidate filter `get_words_with_pattern(guess_word, words,
pattern)` (src/main.py lines 137-154): keep, in order, the secrets whose
`get_pattern` against `guess_word` equals `pattern`; an exception from
`get_pattern` propagates (`none`).  The input list is never mutated (the
embedding is pure; the source appends to a fresh `possible` list). -/
def get_words_with_pattern (guess_word : Word) :
    List Word → Pattern → Option (List Word)
  | [], _ => some []
  | s :: rest, pattern =>
    match get_pattern guess_word s with
    | none => none
    | some q =>
      (get_words_with_pattern guess_word rest pattern).map
        (fun l => if q = pattern then s :: l else l)

/-! ### Specification-side pattern evaluator (for the refinement claim C1)

`spec_evaluate` is written from the words of the claim, not from the
source: position `i` is Green exactly when `guess[i] = secret[i]`; each
non-Green position, processed strictly left to right, is Yellow when the
occurrence count of its letter in the secret exceeds the marks already
consumed for that letter (all Green marks plus the earlier Yellow marks),
consuming one occurrence, and Black otherwise. -/

/-- Number of pairs in `pairs` that are exact matches on letter `ch`. -/
def greensCnt (pairs : List (Char × Char)) (ch : Char) : Nat :=
  pairs.countP (fun pr => decide (pr.1 = pr.2 ∧ pr.1 = ch))

/-- Left-to-right marking of the claim: `consumed` carries, per letter,
the Green marks of the whole word plus the Yellow marks already assigned;
a non-Green position is Yellow exactly when
`secretCount ch - consumed ch > 0`, i.e. `consumed ch < secretCount ch`. -/
def specPass :
    List (Char × Char) → (Char → Nat) → (Char → Nat) → List Mark
  | [], _, _ => []
  | (g, s) :: rest, consumed, secretCount =>
    if g = s then
      Mark.G :: specPass rest consumed secretCount
    else
      if consumed g < secretCount g then
        Mark.Y :: specPass rest (bump consumed g) secretCount
      else
        Mark.B :: specPass rest consumed secretCount

/-- The claim's evaluator: mark the zipped positions with the consumed
counter initialised to the Green tally of the whole word. -/
def spec_evaluate (guess secret : Word) : Pattern :=
  specPass (guess.zip secret) (fun ch => greensCnt (guess.zip secret) ch)
    (fun c => secret.count c)

example :
    spec_evaluate ['a', 'a', 'b', 'b', 'b'] ['a', 'b', 'a', 'b', 'a'] =
      [Mark.G, Mark.Y, Mark.Y, Mark.G, Mark.B] := by decide

/-! ### Characterisation of the two passes of `get_pattern` -/

/-- The buffer cells produced by the exact-match pass: `'G'` on equal
pairs, the untouched initial `''` (`none`) elsewhere. -/
def greenCells (pairs : List (Char × Char)) : List (Option Mark) :=
  pairs.map (fun pr => if pr.1 = pr.2 then some Mark.G else none)

/-- Effect of the exact-match pass on an arbitrary buffer: write `'G'`
through the matched positions, keep the rest. -/
def markGreens : List (Char × Char) → List (Option Mark) → List (Option Mark)
  | [], buf => buf
  | _ :: _, [] => []
  | (g, s) :: rest, cell :: buf =>
    (if g = s then some Mark.G else cell) :: markGreens rest buf

lemma greenPass_eq (pairs : List (Char × Char)) :
    ∀ (buf : List (Option Mark)) (counts : Char → Nat),
      pairs.length ≤ buf.length →
      greenPass pairs buf counts =
        some (markGreens pairs buf, fun ch => counts ch + greensCnt pairs ch) := by
  induction pairs with
  | nil =>
    intro buf counts _
    simp [greenPass, markGreens, greensCnt]
  | cons pr rest ih =>
    intro buf counts h
    obtain ⟨g, s⟩ := pr
    match buf with
    | [] => simp at h
    | cell :: buf =>
      by_cases hgs : g = s
      · have hrec := ih buf (bump counts g) (by simpa using h)
        simp only [greenPass, if_pos hgs, hrec, markGreens, Option.some_inj,
          Prod.mk.injEq, true_and]
        funext ch
        by_cases hch : ch = g
        · subst hch
          simp [bump, greensCnt, List.countP_cons, hgs]
          omega
        · subst hgs
          simp [bump, hch, greensCnt, List.countP_cons]
          exact fun h => hch h.symm
      · have hrec := ih buf counts (by simpa using h)
        simp only [greenPass, if_neg hgs, hrec, markGreens, Option.some_inj,
          Prod.mk.injEq, true_and]
        funext ch
        simp [greensCnt, List.countP_cons, hgs]

lemma markGreens_replicate (pairs : List (Char × Char)) :
    ∀ n : Nat, pairs.length ≤ n →
      markGreens pairs (List.replicate n (none : Option Mark)) =
        greenCells pairs ++
          List.replicate (n - pairs.length) (none : Option Mark) := by
  induction pairs with
  | nil => intro n _; simp [markGreens, greenCells]
  | cons pr rest ih =>
    intro n h
    obtain ⟨g, s⟩ := pr
    match n with
    | 0 => simp at h
    | m + 1 =>
      have hrec := ih m (by simpa using h)
      simp [List.replicate_succ, markGreens, hrec, greenCells]

lemma remainderPass_eq (pairs : List (Char × Char)) :
    ∀ (rest0 : List (Option Mark)) (counts sc : Char → Nat),
      ∃ c2, remainderPass pairs (greenCells pairs ++ rest0) counts sc =
        some ((specPass pairs counts sc).map some ++ rest0, c2) := by
  induction pairs with
  | nil =>
    intro rest0 counts sc
    exact ⟨counts, by simp [greenCells, remainderPass, specPass]⟩
  | cons pr rest ih =>
    intro rest0 counts sc
    obtain ⟨g, s⟩ := pr
    by_cases hgs : g = s
    · obtain ⟨c2, hc⟩ := ih rest0 counts sc
      refine ⟨c2, ?_⟩
      simp only [greenCells] at hc
      simp [greenCells, remainderPass, hgs, hc, specPass]
    · by_cases hlt : counts g < sc g
      · obtain ⟨c2, hc⟩ := ih rest0 (bump counts g) sc
        refine ⟨c2, ?_⟩
        simp only [greenCells] at hc
        simp [greenCells, remainderPass, hgs, hlt, hc, specPass]
      · obtain ⟨c2, hc⟩ := ih rest0 counts sc
        refine ⟨c2, ?_⟩
        simp only [greenCells] at hc
        simp [greenCells, remainderPass, hgs, hlt, hc, specPass]

lemma greenPass_length (pairs : List (Char × Char)) :
    ∀ (buf : List (Option Mark)) (counts : Char → Nat)
      (r : List (Option Mark) × (Char → Nat)),
      greenPass pairs buf counts = some r → r.1.length = buf.length := by
  induction pairs with
  | nil =>
    intro buf counts r hr
    simp [greenPass] at hr
    subst hr
    rfl
  | cons pr rest ih =>
    intro buf counts r hr
    obtain ⟨g, s⟩ := pr
    match buf with
    | [] =>
      by_cases hgs : g = s
      · simp [greenPass, hgs] at hr
      · simp only [greenPass, if_neg hgs] at hr
        match hrec : greenPass rest [] counts with
        | none => rw [hrec] at hr; simp at hr
        | some (buf2, counts2) =>
          rw [hrec] at hr
          simp at hr
          subst hr
          rfl
    | cell :: buf =>
      by_cases hgs : g = s
      · simp only [greenPass, if_pos hgs] at hr
        match hrec : greenPass rest buf (bump counts g) with
        | none => rw [hrec] at hr; simp at hr
        | some (buf2, counts2) =>
          rw [hrec] at hr
          simp at hr
          have hb := ih buf (bump counts g) (buf2, counts2) hrec
          subst hr
          simpa using hb
      · simp only [greenPass, if_neg hgs] at hr
        match hrec : greenPass rest buf counts with
        | none => rw [hrec] at hr; simp at hr
        | some (buf2, counts2) =>
          rw [hrec] at hr
          simp at hr
          have hb := ih buf counts (buf2, counts2) hrec
          subst hr
          simpa using hb

lemma remainderPass_none (pairs : List (Char × Char)) :
    ∀ (buf : List (Option Mark)) (counts sc : Char → Nat),
      buf.length < pairs.length → remainderPass pairs buf counts sc = none := by
  induction pairs with
  | nil => intro buf counts sc h; simp at h
  | cons pr rest ih =>
    intro buf counts sc h
    obtain ⟨g, s⟩ := pr
    match buf with
    | [] => rfl
    | cell :: buf =>
      have hlen : buf.length < rest.length := by
        simpa [Nat.succ_lt_succ_iff] using h
      by_cases hG : cell = some Mark.G
      · simp [remainderPass, hG, ih buf counts sc hlen]
      · by_cases hlt : counts g < sc g
        · simp [remainderPass, hG, hlt, ih buf (bump counts g) sc hlen]
        · simp [remainderPass, hG, hlt, ih buf counts sc hlen]

lemma filterMap_id_marks (l : List Mark) :
    ∀ k : Nat,
      ((l.map some) ++ List.replicate k (none : Option Mark)).filterMap id =
        l := by
  intro k
  induction l with
  | nil =>
    induction k with
    | zero => simp
    | succ m ihm => simp [List.replicate_succ]
  | cons m rest ih => simp

lemma specPass_length (pairs : List (Char × Char)) :
    ∀ (c sc : Char → Nat), (specPass pairs c sc).length = pairs.length := by
  induction pairs with
  | nil => intro c sc; simp [specPass]
  | cons pr rest ih =>
    intro c sc
    obtain ⟨g, s⟩ := pr
    by_cases hgs : g = s
    · simp [specPass, hgs, ih]
    · by_cases hlt : c g < sc g
      · simp [specPass, hgs, hlt, ih]
      · simp [specPass, hgs, hlt, ih]

/-- On any pair of words whose zipped length fits in the 5-cell buffer,
`get_pattern` returns normally with exactly the claim's pattern. -/
lemma get_pattern_eq_spec (g s : Word) (h : (g.zip s).length ≤ 5) :
    get_pattern g s = some (spec_evaluate g s) := by
  have hgreen := greenPass_eq (g.zip s) (List.replicate 5 none) (fun _ => 0)
    (by simpa using h)
  have hmark := markGreens_replicate (g.zip s) 5 h
  have hcounts :
      (fun ch => (fun _ : Char => 0) ch + greensCnt (g.zip s) ch) =
        fun ch => greensCnt (g.zip s) ch := by
    funext ch; simp
  obtain ⟨c2, hrem⟩ := remainderPass_eq (g.zip s)
    (List.replicate (5 - (g.zip s).length) none)
    (fun ch => greensCnt (g.zip s) ch) (fun c => s.count c)
  unfold get_pattern
  rw [hgreen]
  simp only [hmark, hcounts]
  rw [hrem]
  simp [filterMap_id_marks, spec_evaluate]

/-- On any pair of words whose zipped length exceeds the 5-cell buffer,
`get_pattern` raises `IndexError`. -/
lemma get_pattern_none_of_long (g s : Word) (h : 5 < (g.zip s).length) :
    get_pattern g s = none := by
  unfold get_pattern
  match hg : greenPass (g.zip s) (List.replicate 5 none) (fun _ => 0) with
  | none => rfl
  | some r =>
    obtain ⟨buf, counts⟩ := r
    have hlen : buf.length = 5 := by
      simpa using greenPass_length (g.zip s) _ _ _ hg
    have hnone := remainderPass_none (g.zip s) buf counts (fun c => s.count c)
      (by rw [hlen]; exact h)
    simp [hnone]

lemma spec_evaluate_length (g s : Word) :
    (spec_evaluate g s).length = (g.zip s).length := by
  unfold spec_evaluate
  exact specPass_length _ _ _

lemma specPass_getElem?_G (pairs : List (Char × Char)) :
    ∀ (c sc : Char → Nat) (i : Nat) (a b : Char),
      pairs[i]? = some (a, b) →
      ((specPass pairs c sc)[i]? = some Mark.G ↔ a = b) := by
  induction pairs with
  | nil => intro c sc i a b h; simp at h
  | cons pr rest ih =>
    intro c sc i a b h
    obtain ⟨g, s⟩ := pr
    match i with
    | 0 =>
      simp only [List.getElem?_cons_zero, Option.some_inj, Prod.mk.injEq] at h
      obtain ⟨rfl, rfl⟩ := h
      by_cases hgs : g = s
      · simp [specPass, hgs]
      · by_cases hlt : c g < sc g
        · simp [specPass, hgs, hlt]
        · simp [specPass, hgs, hlt]
    | i + 1 =>
      simp only [List.getElem?_cons_succ] at h
      by_cases hgs : g = s
      · simpa [specPass, hgs] using ih c sc i a b h
      · by_cases hlt : c g < sc g
        · simpa [specPass, hgs, hlt] using ih (bump c g) sc i a b h
        · simpa [specPass, hgs, hlt] using ih c sc i a b h

/-- C1: for equal-length 5-letter words, `get_pattern` computes exactly
the pattern described by the spec: position `i` is Green iff
`guess[i] = secret[i]`, and each non-Green position, processed left to
right, is Yellow iff the secret's occurrence count of its letter still
exceeds the Green-plus-earlier-Yellow consumption (consuming one), else
Black — this is the definition of `spec_evaluate`. -/
theorem C1_evaluate_two_pass (g s : Word) (hg : g.length = 5)
    (hs : s.length = 5) :
    get_pattern g s = some (spec_evaluate g s) ∧
      ∀ i : Nat, i < 5 →
        ((spec_evaluate g s)[i]? = some Mark.G ↔ g[i]? = s[i]?) := by
  have hzip : (g.zip s).length = 5 := by
    rw [List.length_zip, hg, hs, min_self]
  refine ⟨get_pattern_eq_spec g s (le_of_eq hzip), ?_⟩
  intro i hi
  have hig : i < g.length := by rw [hg]; exact hi
  have his : i < s.length := by rw [hs]; exact hi
  have hgg : g[i]? = some g[i] := List.getElem?_eq_getElem hig
  have hss : s[i]? = some s[i] := List.getElem?_eq_getElem his
  have hzz : (g.zip s)[i]? = some (g[i], s[i]) := by
    rw [List.getElem?_zip_eq_some]
    exact ⟨hgg, hss⟩
  have hiff := specPass_getElem?_G (g.zip s)
    (fun ch => greensCnt (g.zip s) ch) (fun c => s.count c) i g[i] s[i] hzz
  unfold spec_evaluate
  rw [hiff, hgg, hss]
  simp

/-- Witness for C1 at a concrete pair of 5-letter words. -/
theorem C1_evaluate_two_pass_witness :
    get_pattern ['s', 'l', 'a', 't', 'e'] ['c', 'r', 'a', 'n', 'e'] =
      some (spec_evaluate ['s', 'l', 'a', 't', 'e'] ['c', 'r', 'a', 'n', 'e']) :=
  (C1_evaluate_two_pass ['s', 'l', 'a', 't', 'e'] ['c', 'r', 'a', 'n', 'e']
    rfl rfl).1

/-- C10: the pattern buffer is hard-coded to 5 cells.  For equal-length
inputs of length at most 5 the evaluator returns a pattern of the input
length; for equal-length inputs longer than 5 it raises an out-of-range
indexing error (`none`). -/
theorem C10_buffer_five (g s : Word) (h : g.length = s.length) :
    (g.length ≤ 5 → ∃ p, get_pattern g s = some p ∧ p.length = g.length) ∧
      (5 < g.length → get_pattern g s = none) := by
  have hzip : (g.zip s).length = g.length := by
    rw [List.length_zip, h, min_self]
  constructor
  · intro h5
    exact ⟨spec_evaluate g s, get_pattern_eq_spec g s (by rw [hzip]; exact h5),
      by rw [spec_evaluate_length, hzip]⟩
  · intro h5
    exact get_pattern_none_of_long g s (by rw [hzip]; exact h5)

/-- Witness for C10: a length-3 pair succeeds with a length-3 pattern, a
length-6 pair raises. -/
theorem C10_buffer_five_witness :
    (∃ p, get_pattern ['a', 'b', 'c'] ['a', 'b', 'd'] = some p ∧
        p.length = 3) ∧
      get_pattern ['a', 'b', 'c', 'd', 'e', 'f'] ['a', 'b', 'c', 'd', 'e', 'g'] =
        none :=
  ⟨(C10_buffer_five ['a', 'b', 'c'] ['a', 'b', 'd'] rfl).1 (by decide),
    (C10_buffer_five ['a', 'b', 'c', 'd', 'e', 'f']
      ['a', 'b', 'c', 'd', 'e', 'g'] rfl).2 (by decide)⟩

/-- Counterexample to C2: on inputs of different lengths (2 and 3) the
evaluator does not fail at all — it silently truncates to the shorter
length and returns a length-2 pattern normally. -/
theorem C2_counterexample :
    get_pattern ['a', 'b'] ['a', 'b', 'c'] = some [Mark.G, Mark.G] := by
  decide

/-- C2 as amended: for inputs of differing lengths the evaluator raises
no `InvalidLength` error; it silently truncates to the shorter length,
returning a pattern of length `min` whenever `min ≤ 5`, and raises only
the buffer's out-of-range indexing error when `min > 5`. -/
theorem C2_amended_truncation (g s : Word) (_hdiff : g.length ≠ s.length) :
    (min g.length s.length ≤ 5 →
      ∃ p, get_pattern g s = some p ∧ p.length = min g.length s.length) ∧
      (5 < min g.length s.length → get_pattern g s = none) := by
  have hzip : (g.zip s).length = min g.length s.length := List.length_zip g s
  constructor
  · intro h5
    exact ⟨spec_evaluate g s, get_pattern_eq_spec g s (by rw [hzip]; exact h5),
      by rw [spec_evaluate_length, hzip]⟩
  · intro h5
    exact get_pattern_none_of_long g s (by rw [hzip]; exact h5)

/-- Witness for the amended C2 at lengths 2 and 3. -/
theorem C2_amended_truncation_witness :
    ∃ p, get_pattern ['a', 'b'] ['a', 'b', 'c'] = some p ∧ p.length = min 2 3 :=
  (C2_amended_truncation ['a', 'b'] ['a', 'b', 'c'] (by decide)).1 (by decide)

/-! ### Count conservation (C9) -/

lemma specPass_cons_G {g s : Char} (rest : List (Char × Char))
    (c sc : Char → Nat) (hgs : g = s) :
    specPass ((g, s) :: rest) c sc = Mark.G :: specPass rest c sc := by
  simp [specPass, hgs]

lemma specPass_cons_Y {g s : Char} (rest : List (Char × Char))
    (c sc : Char → Nat) (hgs : ¬ g = s) (hlt : c g < sc g) :
    specPass ((g, s) :: rest) c sc = Mark.Y :: specPass rest (bump c g) sc := by
  simp [specPass, hgs, hlt]

lemma specPass_cons_B {g s : Char} (rest : List (Char × Char))
    (c sc : Char → Nat) (hgs : ¬ g = s) (hlt : ¬ c g < sc g) :
    specPass ((g, s) :: rest) c sc = Mark.B :: specPass rest c sc := by
  simp [specPass, hgs, hlt]

lemma greensCnt_cons (g s : Char) (rest : List (Char × Char)) (ch : Char) :
    greensCnt ((g, s) :: rest) ch =
      greensCnt rest ch + if g = s ∧ g = ch then 1 else 0 := by
  simp [greensCnt, List.countP_cons]

lemma greensCnt_le_count (g : Word) :
    ∀ (s : Word) (ch : Char), greensCnt (g.zip s) ch ≤ s.count ch := by
  induction g with
  | nil => intro s ch; simp [greensCnt]
  | cons a g ih =>
    intro s ch
    match s with
    | [] => simp [greensCnt]
    | b :: s =>
      have hrec := ih s ch
      rw [List.zip_cons_cons, greensCnt_cons, List.count_cons]
      simp only [beq_iff_eq]
      by_cases hab : a = b ∧ a = ch
      · rw [if_pos hab]
        have hcb : b = ch := by rw [← hab.1]; exact hab.2
        rw [if_pos hcb]
        omega
      · rw [if_neg hab]
        by_cases hcb : b = ch
        · rw [if_pos hcb]; omega
        · rw [if_neg hcb]; omega

lemma specPass_yellow (pairs : List (Char × Char)) :
    ∀ (c sc : Char → Nat) (ch : Char), c ch ≤ sc ch →
      c ch + (pairs.zip (specPass pairs c sc)).countP
          (fun x => decide (x.2 = Mark.Y ∧ x.1.1 = ch)) ≤ sc ch := by
  induction pairs with
  | nil => intro c sc ch h; simpa using h
  | cons pr rest ih =>
    intro c sc ch h
    obtain ⟨g, s⟩ := pr
    by_cases hgs : g = s
    · rw [specPass_cons_G rest c sc hgs, List.zip_cons_cons,
        List.countP_cons_of_neg]
      · exact ih c sc ch h
      · simp
    · by_cases hlt : c g < sc g
      · by_cases hch : g = ch
        · subst hch
          rw [specPass_cons_Y rest c sc hgs hlt, List.zip_cons_cons,
            List.countP_cons_of_pos]
          · have hb : bump c g g = c g + 1 := by simp [bump]
            have hrec := ih (bump c g) sc g (by rw [hb]; omega)
            rw [hb] at hrec
            omega
          · simp
        · rw [specPass_cons_Y rest c sc hgs hlt, List.zip_cons_cons,
            List.countP_cons_of_neg]
          · have hbc : bump c g ch = c ch := by
              have hcg : ¬ ch = g := fun hc => hch hc.symm
              simp [bump, hcg]
            have hrec := ih (bump c g) sc ch (by rw [hbc]; exact h)
            rw [hbc] at hrec
            exact hrec
          · simp [hch]
      · rw [specPass_cons_B rest c sc hgs hlt, List.zip_cons_cons,
          List.countP_cons_of_neg]
        · exact ih c sc ch h
        · simp

lemma specPass_GY_split (pairs : List (Char × Char)) :
    ∀ (c sc : Char → Nat) (ch : Char),
      (pairs.zip (specPass pairs c sc)).countP
          (fun x => decide (¬ x.2 = Mark.B ∧ x.1.1 = ch)) =
        greensCnt pairs ch +
          (pairs.zip (specPass pairs c sc)).countP
            (fun x => decide (x.2 = Mark.Y ∧ x.1.1 = ch)) := by
  induction pairs with
  | nil => intro c sc ch; simp [greensCnt]
  | cons pr rest ih =>
    intro c sc ch
    obtain ⟨g, s⟩ := pr
    rw [greensCnt_cons]
    by_cases hgs : g = s
    · by_cases hch : g = ch
      · rw [specPass_cons_G rest c sc hgs, List.zip_cons_cons,
          List.countP_cons_of_pos, List.countP_cons_of_neg]
        · rw [if_pos ⟨hgs, hch⟩]
          have hrec := ih c sc ch
          omega
        · simp
        · simp [hch]
      · rw [specPass_cons_G rest c sc hgs, List.zip_cons_cons,
          List.countP_cons_of_neg, List.countP_cons_of_neg]
        · rw [if_neg (fun hc => hch hc.2)]
          have hrec := ih c sc ch
          omega
        · simp
        · simp [hch]
    · by_cases hlt : c g < sc g
      · by_cases hch : g = ch
        · rw [specPass_cons_Y rest c sc hgs hlt, List.zip_cons_cons,
            List.countP_cons_of_pos, List.countP_cons_of_pos]
          · rw [if_neg (fun hc => hgs hc.1)]
            have hrec := ih (bump c g) sc ch
            omega
          · simp [hch]
          · simp [hch]
        · rw [specPass_cons_Y rest c sc hgs hlt, List.zip_cons_cons,
            List.countP_cons_of_neg, List.countP_cons_of_neg]
          · rw [if_neg (fun hc => hgs hc.1)]
            have hrec := ih (bump c g) sc ch
            omega
          · simp [hch]
          · simp [hch]
      · rw [specPass_cons_B rest c sc hgs hlt, List.zip_cons_cons,
          List.countP_cons_of_neg, List.countP_cons_of_neg]
        · rw [if_neg (fun hc => hgs hc.1)]
          have hrec := ih c sc ch
          omega
        · simp
        · simp

lemma countP_zip_fst (g : Word) :
    ∀ (s : Word) (ms : List Mark) (q : Char → Mark → Bool),
      g.length = s.length →
      ((g.zip s).zip ms).countP (fun x => q x.1.1 x.2) =
        (g.zip ms).countP (fun x => q x.1 x.2) := by
  induction g with
  | nil => intro s ms q _; simp
  | cons a g ih =>
    intro s ms q h
    match s with
    | [] => simp at h
    | b :: s =>
      match ms with
      | [] => simp
      | m :: ms =>
        have hrec := ih s ms q (by simpa using h)
        simp only [List.zip_cons_cons, List.countP_cons, hrec]

/-- C9: for equal-length inputs on which `get_pattern` returns a pattern,
the Green-plus-Yellow marks assigned to any letter never exceed that
letter's occurrence count in the secret. -/
theorem C9_count_conservation (g s : Word) (p : Pattern)
    (hlen : g.length = s.length) (hp : get_pattern g s = some p) :
    ∀ ch : Char,
      (g.zip p).countP (fun x => decide (¬ x.2 = Mark.B ∧ x.1 = ch)) ≤
        s.count ch := by
  intro ch
  have hz5 : (g.zip s).length ≤ 5 := by
    by_contra hgt
    rw [get_pattern_none_of_long g s (by omega)] at hp
    exact Option.noConfusion hp
  have hspec := get_pattern_eq_spec g s hz5
  rw [hspec] at hp
  have hpp : p = spec_evaluate g s := (Option.some_inj.mp hp).symm
  subst hpp
  unfold spec_evaluate
  have hb :
      ((g.zip s).zip (specPass (g.zip s) (fun ch2 => greensCnt (g.zip s) ch2)
          (fun c => s.count c))).countP
        (fun x => decide (¬ x.2 = Mark.B ∧ x.1.1 = ch)) =
      (g.zip (specPass (g.zip s) (fun ch2 => greensCnt (g.zip s) ch2)
          (fun c => s.count c))).countP
        (fun x => decide (¬ x.2 = Mark.B ∧ x.1 = ch)) :=
    countP_zip_fst g s _ (fun a m => decide (¬ m = Mark.B ∧ a = ch)) hlen
  rw [← hb, specPass_GY_split]
  have hy : greensCnt (g.zip s) ch +
      ((g.zip s).zip (specPass (g.zip s) (fun ch2 => greensCnt (g.zip s) ch2)
          (fun c => s.count c))).countP
        (fun x => decide (x.2 = Mark.Y ∧ x.1.1 = ch)) ≤ s.count ch :=
    specPass_yellow (g.zip s) (fun ch2 => greensCnt (g.zip s) ch2)
      (fun c => s.count c) ch (greensCnt_le_count g s ch)
  exact hy

/-- Witness for C9: `get_pattern "aa" "ab"` assigns one Green-or-Yellow
mark to the letter `a`, which occurs once in the secret. -/
theorem C9_count_conservation_witness :
    ((['a', 'a'].zip [Mark.G, Mark.B]).countP
        (fun x => decide (¬ x.2 = Mark.B ∧ x.1 = 'a'))) ≤
      List.count 'a' ['a', 'b'] :=
  C9_count_conservation ['a', 'a'] ['a', 'b'] [Mark.G, Mark.B] rfl
    (by decide) 'a'

/-! ### The candidate filter (C5) -/

/-- C5: whenever the filter returns normally, the result is an
order-preserving subsequence of the candidates holding exactly those
candidates whose evaluation against the guess equals the observed
pattern.  (The input list is a pure value in the embedding; the source
builds a fresh list and never mutates its input.) -/
theorem C5_filter_consistent (g : Word) :
    ∀ (ws : List Word) (p : Pattern) (res : List Word),
      get_words_with_pattern g ws p = some res →
      res.Sublist ws ∧
        ∀ c : Word, c ∈ res ↔ c ∈ ws ∧ get_pattern g c = some p := by
  intro ws
  induction ws with
  | nil =>
    intro p res h
    simp [get_words_with_pattern] at h
    subst h
    simp
  | cons s rest ih =>
    intro p res h
    simp only [get_words_with_pattern] at h
    match hq : get_pattern g s with
    | none => rw [hq] at h; simp at h
    | some q =>
      rw [hq] at h
      match hr : get_words_with_pattern g rest p with
      | none => rw [hr] at h; simp at h
      | some res2 =>
        rw [hr] at h
        simp only [Option.map_some', Option.some_inj] at h
        obtain ⟨hsub, hmem⟩ := ih p res2 hr
        by_cases hqp : q = p
        · rw [if_pos hqp] at h
          subst h
          refine ⟨List.Sublist.cons₂ s hsub, ?_⟩
          intro c
          simp only [List.mem_cons]
          constructor
          · rintro (rfl | hc)
            · exact ⟨Or.inl rfl, by rw [hq, hqp]⟩
            · obtain ⟨h1, h2⟩ := (hmem c).mp hc
              exact ⟨Or.inr h1, h2⟩
          · rintro ⟨(rfl | h1), h2⟩
            · exact Or.inl rfl
            · exact Or.inr ((hmem c).mpr ⟨h1, h2⟩)
        · rw [if_neg hqp] at h
          subst h
          refine ⟨List.Sublist.cons s hsub, ?_⟩
          intro c
          simp only [List.mem_cons]
          constructor
          · intro hc
            obtain ⟨h1, h2⟩ := (hmem c).mp hc
            exact ⟨Or.inr h1, h2⟩
          · rintro ⟨(rfl | h1), h2⟩
            · rw [hq] at h2
              exact absurd (Option.some_inj.mp h2) hqp
            · exact (hmem c).mpr ⟨h1, h2⟩

/-- Witness for C5 at a concrete filtering call. -/
theorem C5_filter_consistent_witness :
    [['a']].Sublist [['a'], ['b']] ∧
      ∀ c : Word,
        c ∈ [['a']] ↔ c ∈ [['a'], ['b']] ∧ get_pattern ['a'] c = some [Mark.G] :=
  C5_filter_consistent ['a'] [['a'], ['b']] [Mark.G] [['a']] (by decide)

/-! ### The pattern tally (C6) -/

lemma patternsOf_length (g : Word) :
    ∀ (ws : List Word) (l : List Pattern),
      patternsOf g ws = some l → l.length = ws.length := by
  intro ws
  induction ws with
  | nil =>
    intro l h
    simp [patternsOf] at h
    subst h
    rfl
  | cons s rest ih =>
    intro l h
    simp only [patternsOf] at h
    match hq : get_pattern g s with
    | none => rw [hq] at h; simp at h
    | some q =>
      rw [hq] at h
      match hr : patternsOf g rest with
      | none => rw [hr] at h; simp at h
      | some l2 =>
        rw [hr] at h
        simp only [Option.map_some', Option.some_inj] at h
        subst h
        simp [ih l2 hr]

lemma patternsOf_mem (g : Word) :
    ∀ (ws : List Word) (l : List Pattern),
      patternsOf g ws = some l →
      ∀ p : Pattern, p ∈ l ↔ ∃ c ∈ ws, get_pattern g c = some p := by
  intro ws
  induction ws with
  | nil =>
    intro l h p
    simp [patternsOf] at h
    subst h
    simp
  | cons s rest ih =>
    intro l h p
    simp only [patternsOf] at h
    match hq : get_pattern g s with
    | none => rw [hq] at h; simp at h
    | some q =>
      rw [hq] at h
      match hr : patternsOf g rest with
      | none => rw [hr] at h; simp at h
      | some l2 =>
        rw [hr] at h
        simp only [Option.map_some', Option.some_inj] at h
        subst h
        have hrec := ih l2 hr p
        simp only [List.mem_cons, hrec]
        constructor
        · rintro (rfl | ⟨c, hc1, hc2⟩)
          · exact ⟨s, Or.inl rfl, hq⟩
          · exact ⟨c, Or.inr hc1, hc2⟩
        · rintro ⟨c, (rfl | hc1), hc2⟩
          · rw [hq] at hc2
            exact Or.inl (Option.some_inj.mp hc2).symm
          · exact Or.inr ⟨c, hc1, hc2⟩

/-- C6: a successful tally maps exactly the produced patterns to positive
multiplicities (a pattern not produced has multiplicity 0, i.e. no
entry), the multiplicities sum to the number of candidates, and an empty
candidate list yields the empty tally. -/
theorem C6_tally_sums (g : Word) (ws : List Word) (ps : Multiset Pattern)
    (h : get_pattern_counts g ws = some ps) :
    (∀ p : Pattern, 0 < ps.count p ↔ ∃ c ∈ ws, get_pattern g c = some p) ∧
      (∑ p ∈ ps.toFinset, ps.count p) = ws.length ∧
      (ws = [] → ps = 0) := by
  simp only [get_pattern_counts] at h
  match hl : patternsOf g ws with
  | none => rw [hl] at h; simp at h
  | some l =>
    rw [hl] at h
    simp only [Option.map_some', Option.some_inj] at h
    subst h
    refine ⟨?_, ?_, ?_⟩
    · intro p
      rw [Multiset.count_pos, Multiset.mem_coe]
      exact patternsOf_mem g ws l hl p
    · rw [Multiset.toFinset_sum_count_eq]
      simpa using patternsOf_length g ws l hl
    · intro hnil
      subst hnil
      simp only [patternsOf, Option.some_inj] at hl
      simp [← hl]

/-- Witness for C6 at a concrete two-candidate tally. -/
theorem C6_tally_sums_witness :
    (∑ p ∈ (Multiset.ofList [[Mark.G], [Mark.B]]).toFinset,
      (Multiset.ofList [[Mark.G], [Mark.B]]).count p) = 2 :=
  (C6_tally_sums ['a'] [['a'], ['b']]
    (Multiset.ofList [[Mark.G], [Mark.B]]) (by decide)).2.1

/-! ### Entropy of the empty candidate list (C8) -/

/-- C8: on an empty candidate list the scorer returns 0 normally: the
tally is empty, the loop adds no term, and the division by `n = 0` is
never executed. -/
theorem C8_entropy_empty (g : Word) : calculate_entropy g [] = some 0 := by
  simp [calculate_entropy, get_pattern_counts, patternsOf]

/-! ### The guess selector (C3, C4) -/

lemma patternsOf_isSome (g : Word) :
    ∀ ws : List Word, (∀ w ∈ ws, w.length ≤ 5) →
      ∃ l : List Pattern, patternsOf g ws = some l := by
  intro ws
  induction ws with
  | nil => intro _; exact ⟨[], rfl⟩
  | cons s rest ih =>
    intro h
    have h5 : (g.zip s).length ≤ 5 := by
      rw [List.length_zip]
      exact le_trans (min_le_right _ _) (h s (by simp))
    obtain ⟨l, hl⟩ := ih (fun w hw => h w (by simp [hw]))
    exact ⟨spec_evaluate g s :: l,
      by simp [patternsOf, get_pattern_eq_spec g s h5, hl]⟩

lemma calculate_entropy_isSome (g : Word) (ws : List Word)
    (h : ∀ w ∈ ws, w.length ≤ 5) :
    ∃ r : ℝ, calculate_entropy g ws = some r := by
  obtain ⟨l, hl⟩ := patternsOf_isSome g ws h
  unfold calculate_entropy get_pattern_counts
  rw [hl]
  exact ⟨_, rfl⟩

lemma bestLoop_cons (words : List Word) (v : Word) (rest : List Word)
    (be : EReal) (bw : Option Word) (e : ℝ)
    (he : calculate_entropy v words = some e) :
    bestLoop words (v :: rest) (be, bw) =
      bestLoop words rest
        (if (e : EReal) > be then ((e : EReal), some v) else (be, bw)) := by
  simp only [bestLoop, he]

/-- Invariant of the selection loop: starting from a real best entropy
`e0` held by `w0`, the loop either keeps the accumulator (every remaining
entropy is at most `e0`) or ends at the first strict improvement chain's
last winner `w`, whose entropy strictly exceeds everything scanned before
`w` and is at least everything after. -/
lemma bestLoop_spec (words : List Word) :
    ∀ pool : List Word,
      (∀ w ∈ pool, ∃ r : ℝ, calculate_entropy w words = some r) →
      ∀ (e0 : ℝ) (w0 : Word),
      (bestLoop words pool ((e0 : EReal), some w0) =
          some ((e0 : EReal), some w0) ∧
        ∀ v ∈ pool, ∀ ev : ℝ, calculate_entropy v words = some ev → ev ≤ e0) ∨
      (∃ (pre : List Word) (w : Word) (post : List Word) (e : ℝ),
        pool = pre ++ w :: post ∧
        calculate_entropy w words = some e ∧ e0 < e ∧
        bestLoop words pool ((e0 : EReal), some w0) =
          some ((e : EReal), some w) ∧
        (∀ v ∈ pre, ∀ ev : ℝ, calculate_entropy v words = some ev → ev < e) ∧
        (∀ v ∈ post, ∀ ev : ℝ, calculate_entropy v words = some ev → ev ≤ e)) := by
  intro pool
  induction pool with
  | nil =>
    intro _ e0 w0
    left
    exact ⟨rfl, by simp⟩
  | cons v rest ih =>
    intro hpool e0 w0
    obtain ⟨ev, hev⟩ := hpool v (by simp)
    have hrest : ∀ w ∈ rest, ∃ r : ℝ, calculate_entropy w words = some r :=
      fun w hw => hpool w (by simp [hw])
    rw [bestLoop_cons words v rest _ _ ev hev]
    by_cases hgt : e0 < ev
    · rw [if_pos (EReal.coe_lt_coe_iff.mpr hgt)]
      rcases ih hrest ev v with ⟨hl1, hl2⟩ |
        ⟨pre, w, post, e, hsplit, hent, hlt, hloop, hpre, hpost⟩
      · right
        refine ⟨[], v, rest, ev, by simp, hev, hgt, hl1, by simp, hl2⟩
      · right
        refine ⟨v :: pre, w, post, e, by rw [hsplit]; rfl, hent,
          lt_trans hgt hlt, hloop, ?_, hpost⟩
        intro u hu ev2 hev2
        rcases List.mem_cons.mp hu with rfl | hu2
        · rw [hev] at hev2
          rw [← Option.some_inj.mp hev2]
          exact hlt
        · exact hpre u hu2 ev2 hev2
    · rw [if_neg (fun hc => hgt (EReal.coe_lt_coe_iff.mp hc))]
      rcases ih hrest e0 w0 with ⟨hl1, hl2⟩ |
        ⟨pre, w, post, e, hsplit, hent, hlt, hloop, hpre, hpost⟩
      · left
        refine ⟨hl1, ?_⟩
        intro u hu ev2 hev2
        rcases List.mem_cons.mp hu with rfl | hu2
        · rw [hev] at hev2
          rw [← Option.some_inj.mp hev2]
          exact le_of_not_lt hgt
        · exact hl2 u hu2 ev2 hev2
      · right
        refine ⟨v :: pre, w, post, e, by rw [hsplit]; rfl, hent, hlt, hloop,
          ?_, hpost⟩
        intro u hu ev2 hev2
        rcases List.mem_cons.mp hu with rfl | hu2
        · rw [hev] at hev2
          rw [← Option.some_inj.mp hev2]
          exact lt_of_le_of_lt (le_of_not_lt hgt) hlt
        · exact hpre u hu2 ev2 hev2

/-- C3: on a non-empty pool of (at most 5-letter) words the selector
returns a word of the pool of maximal entropy, and on ties the first such
word in iteration order: every word scanned before the winner has
strictly smaller entropy, every word after it has entropy at most the
winner's.  (In the source the pool is scored against itself:
`calculate_entropy(w, words)` with the same `words`.) -/
theorem C3_select_argmax (words : List Word) (hne : words ≠ [])
    (h5 : ∀ w ∈ words, w.length ≤ 5) :
    ∃ (w : Word) (pre post : List Word) (e : ℝ),
      words = pre ++ w :: post ∧
      get_best_guess words = some (some w) ∧
      calculate_entropy w words = some e ∧
      (∀ v ∈ pre, ∀ ev : ℝ, calculate_entropy v words = some ev → ev < e) ∧
      (∀ v ∈ post, ∀ ev : ℝ, calculate_entropy v words = some ev → ev ≤ e) ∧
      (∀ v ∈ words, ∀ ev : ℝ, calculate_entropy v words = some ev → ev ≤ e) := by
  have hall : ∀ w ∈ words, ∃ r : ℝ, calculate_entropy w words = some r :=
    fun w _ => calculate_entropy_isSome w words h5
  cases words with
  | nil => exact absurd rfl hne
  | cons v rest =>
    obtain ⟨e1, he1⟩ := hall v (by simp)
    have hstep := bestLoop_cons (v :: rest) v rest ⊥ none e1 he1
    rw [if_pos (EReal.bot_lt_coe e1)] at hstep
    have hrest : ∀ w ∈ rest, ∃ r : ℝ,
        calculate_entropy w (v :: rest) = some r :=
      fun w hw => hall w (by simp [hw])
    rcases bestLoop_spec (v :: rest) rest hrest e1 v with ⟨hl1, hl2⟩ |
      ⟨pre, w, post, e, hsplit, hent, hlt, hloop, hpre, hpost⟩
    · refine ⟨v, [], rest, e1, by simp, ?_, he1, by simp, hl2, ?_⟩
      · rw [get_best_guess, hstep, hl1]
        rfl
      · intro u hu ev2 hev2
        rcases List.mem_cons.mp hu with rfl | hu2
        · rw [he1] at hev2
          rw [← Option.some_inj.mp hev2]
        · exact hl2 u hu2 ev2 hev2
    · refine ⟨w, v :: pre, post, e, by rw [hsplit]; rfl, ?_, hent, ?_, hpost,
        ?_⟩
      · rw [get_best_guess, hstep, hloop]
        rfl
      · intro u hu ev2 hev2
        rcases List.mem_cons.mp hu with rfl | hu2
        · rw [he1] at hev2
          rw [← Option.some_inj.mp hev2]
          exact hlt
        · exact hpre u hu2 ev2 hev2
      · intro u hu ev2 hev2
        rcases List.mem_cons.mp hu with rfl | hu2
        · rw [he1] at hev2
          rw [← Option.some_inj.mp hev2]
          exact le_of_lt hlt
        · rw [hsplit] at hu2
          rcases List.mem_append.mp hu2 with hu3 | hu3
          · exact le_of_lt (hpre u hu3 ev2 hev2)
          · rcases List.mem_cons.mp hu3 with rfl | hu4
            · rw [hent] at hev2
              rw [← Option.some_inj.mp hev2]
            · exact hpost u hu4 ev2 hev2

/-- Witness for C3 at the one-word pool `[['a']]`. -/
theorem C3_select_argmax_witness :
    ∃ (w : Word) (pre post : List Word) (e : ℝ),
      [['a']] = pre ++ w :: post ∧
      get_best_guess [['a']] = some (some w) ∧
      calculate_entropy w [['a']] = some e ∧
      (∀ v ∈ pre, ∀ ev : ℝ, calculate_entropy v [['a']] = some ev → ev < e) ∧
      (∀ v ∈ post, ∀ ev : ℝ, calculate_entropy v [['a']] = some ev → ev ≤ e) ∧
      (∀ v ∈ [['a']], ∀ ev : ℝ,
        calculate_entropy v [['a']] = some ev → ev ≤ e) :=
  C3_select_argmax [['a']] (by decide) (by decide)

/-- Counterexample to C4: called on the empty pool, `get_best_guess`
raises no error at all — the loop body never runs and the function
returns Python's `None` (the initial `best_word`) as an ordinary value. -/
theorem C4_counterexample : get_best_guess [] = some none := rfl

/-- C4 as amended: on an empty pool the selector fails with no explicit
error; it returns `None` — no word value — as a normal return. -/
theorem C4_amended_returns_none :
    get_best_guess [] = some none ∧
      ∀ w : Word, get_best_guess [] ≠ some (some w) := by
  refine ⟨rfl, ?_⟩
  intro w hw
  rw [C4_counterexample] at hw
  simp at hw

/-! ### Entropy bounds (C7) -/

lemma concaveOn_logb_two : ConcaveOn ℝ (Set.Ioi 0) (Real.logb 2) := by
  have h2 : ConcaveOn ℝ (Set.Ioi 0) ((Real.log 2)⁻¹ • Real.log) :=
    strictConcaveOn_log_Ioi.concaveOn.smul (by positivity)
  have hfun : Real.logb 2 = (Real.log 2)⁻¹ • Real.log := by
    funext x
    simp [Real.logb, div_eq_inv_mul, Pi.smul_apply, smul_eq_mul]
  rw [hfun]
  exact h2

/-- Bounds for a finite entropy sum whose weights are counts over a total
of `n`: the sum is non-negative and at most `log2` of the number of
distinct outcomes. -/
lemma entropy_sum_bounds (s : Finset Pattern) (cnt : Pattern → ℕ) (n : ℕ)
    (hn : 0 < n) (hpos : ∀ p ∈ s, 0 < cnt p)
    (hsum : ∑ p ∈ s, cnt p = n) :
    0 ≤ ∑ p ∈ s, ((cnt p : ℝ) / n) * Real.logb 2 (1 / ((cnt p : ℝ) / n)) ∧
      ∑ p ∈ s, ((cnt p : ℝ) / n) * Real.logb 2 (1 / ((cnt p : ℝ) / n)) ≤
        Real.logb 2 (s.card : ℝ) := by
  have hn2 : (0 : ℝ) < n := by exact_mod_cast hn
  have hterm : ∀ p ∈ s, (1 : ℝ) / ((cnt p : ℝ) / n) = (n : ℝ) / (cnt p) := by
    intro p _
    rw [one_div_div]
  constructor
  · apply Finset.sum_nonneg
    intro p hp
    have hc : (0 : ℝ) < cnt p := by exact_mod_cast hpos p hp
    have hcn : (cnt p : ℝ) ≤ n := by
      exact_mod_cast le_trans
        (Finset.single_le_sum (f := fun q => cnt q)
          (fun q _ => Nat.zero_le _) hp)
        (le_of_eq hsum)
    apply mul_nonneg (by positivity)
    rw [hterm p hp]
    apply Real.logb_nonneg (by norm_num)
    rw [le_div_iff₀ hc]
    simpa using hcn
  · have h₀ : ∀ p ∈ s, 0 ≤ (cnt p : ℝ) / n := fun p _ => by positivity
    have hcast : (∑ p ∈ s, (cnt p : ℝ)) = (n : ℝ) := by exact_mod_cast hsum
    have h₁ : ∑ p ∈ s, (cnt p : ℝ) / n = 1 := by
      rw [← Finset.sum_div, hcast]
      exact div_self (ne_of_gt hn2)
    have hmem : ∀ p ∈ s, (n : ℝ) / (cnt p) ∈ Set.Ioi (0 : ℝ) := by
      intro p hp
      have hc : (0 : ℝ) < cnt p := by exact_mod_cast hpos p hp
      exact Set.mem_Ioi.mpr (div_pos hn2 hc)
    have hJ := concaveOn_logb_two.le_map_sum h₀ h₁ hmem
    have hx : ∑ p ∈ s, ((cnt p : ℝ) / n) • ((n : ℝ) / (cnt p)) =
        (s.card : ℝ) := by
      have hone : ∀ p ∈ s, ((cnt p : ℝ) / n) • ((n : ℝ) / (cnt p)) = 1 := by
        intro p hp
        have hc : (0 : ℝ) < cnt p := by exact_mod_cast hpos p hp
        have hc0 : (cnt p : ℝ) ≠ 0 := ne_of_gt hc
        have hn0 : (n : ℝ) ≠ 0 := ne_of_gt hn2
        rw [smul_eq_mul]
        field_simp
      rw [Finset.sum_congr rfl hone]
      simp
    calc ∑ p ∈ s, ((cnt p : ℝ) / n) * Real.logb 2 (1 / ((cnt p : ℝ) / n))
        = ∑ p ∈ s, ((cnt p : ℝ) / n) • Real.logb 2 ((n : ℝ) / (cnt p)) := by
          apply Finset.sum_congr rfl
          intro p hp
          rw [smul_eq_mul, hterm p hp]
      _ ≤ Real.logb 2 (∑ p ∈ s, ((cnt p : ℝ) / n) • ((n : ℝ) / (cnt p))) := hJ
      _ = Real.logb 2 (s.card : ℝ) := by rw [hx]

/-- C7: on a non-empty candidate list, a normally returned entropy lies
in `[0, log2 n]`; it can equal `log2 n` only when every candidate
produced a distinct pattern, and a single-candidate list scores 0. -/
theorem C7_entropy_range (g : Word) (ws : List Word) (r : ℝ)
    (hne : ws ≠ []) (hr : calculate_entropy g ws = some r) :
    0 ≤ r ∧ r ≤ Real.logb 2 (ws.length : ℝ) ∧
      (r = Real.logb 2 (ws.length : ℝ) →
        ∀ l : List Pattern, patternsOf g ws = some l → l.Nodup) ∧
      (ws.length = 1 → r = 0) := by
  simp only [calculate_entropy, get_pattern_counts] at hr
  match hl : patternsOf g ws with
  | none => rw [hl] at hr; simp at hr
  | some l =>
    rw [hl] at hr
    simp only [Option.map_some', Option.some_inj] at hr
    subst hr
    have hlen : l.length = ws.length := patternsOf_length g ws l hl
    have hn : 0 < ws.length := List.length_pos.mpr hne
    have hcard : (Multiset.ofList l).card = ws.length := by
      simpa using hlen
    have hpos : ∀ p ∈ (Multiset.ofList l).toFinset,
        0 < (Multiset.ofList l).count p :=
      fun p hp => Multiset.count_pos.mpr (Multiset.mem_toFinset.mp hp)
    have hsum : ∑ p ∈ (Multiset.ofList l).toFinset,
        (Multiset.ofList l).count p = ws.length := by
      rw [Multiset.toFinset_sum_count_eq, hcard]
    obtain ⟨hnn, hle⟩ := entropy_sum_bounds (Multiset.ofList l).toFinset
      (fun p => (Multiset.ofList l).count p) ws.length hn hpos hsum
    have hscard : (Multiset.ofList l).toFinset.card ≤ ws.length := by
      have h2 : (Multiset.ofList l).toFinset.card ≤ l.length :=
        List.toFinset_card_le l
      omega
    have hsne : (Multiset.ofList l).toFinset.Nonempty := by
      rw [Multiset.toFinset_nonempty]
      intro hz
      rw [hz] at hcard
      simp at hcard
      omega
    have hscard_pos : 0 < (Multiset.ofList l).toFinset.card :=
      Finset.card_pos.mpr hsne
    refine ⟨hnn, ?_, ?_, ?_⟩
    · exact le_trans hle (Real.logb_le_logb_of_le one_lt_two
        (by exact_mod_cast hscard_pos) (by exact_mod_cast hscard))
    · intro heq l2 hl2
      rw [← Option.some_inj.mp hl2]
      rw [heq] at hle
      by_contra hnd
      have hdl : l.dedup.Sublist l := List.dedup_sublist l
      have hdlen : l.dedup.length < l.length := by
        rcases lt_or_eq_of_le hdl.length_le with hlt | heqlen
        · exact hlt
        · exact absurd (List.dedup_eq_self.mp (hdl.eq_of_length heqlen)) hnd
      have hcy : (Multiset.ofList l).toFinset.card < ws.length := by
        have : (Multiset.ofList l).toFinset.card = l.dedup.length := by
          simpa using List.card_toFinset l
        omega
      have hmono := Real.logb_lt_logb (b := 2) one_lt_two
        (x := ((Multiset.ofList l).toFinset.card : ℝ))
        (y := (ws.length : ℝ))
        (by exact_mod_cast hscard_pos) (by exact_mod_cast hcy)
      linarith
    · intro h1
      have hcards : (Multiset.ofList l).toFinset.card = 1 := by omega
      obtain ⟨p0, hp0⟩ := Finset.card_eq_one.mp hcards
      rw [hp0] at hsum ⊢
      rw [Finset.sum_singleton] at hsum ⊢
      rw [hsum, h1]
      norm_num

/-- Witness for C7 at the singleton candidate list, whose entropy is 0. -/
theorem C7_entropy_range_witness :
    0 ≤ (0 : ℝ) ∧
      (0 : ℝ) ≤ Real.logb 2 (([['a']] : List Word).length : ℝ) ∧
      ((0 : ℝ) = Real.logb 2 (([['a']] : List Word).length : ℝ) →
        ∀ l : List Pattern, patternsOf ['a'] [['a']] = some l → l.Nodup) ∧
      (([['a']] : List Word).length = 1 → (0 : ℝ) = 0) :=
  C7_entropy_range ['a'] [['a']] 0 (by simp)
    (by
      have h1 : patternsOf ['a'] [['a']] = some [[Mark.G]] := by decide
      have h2 : (Multiset.ofList [[Mark.G]]).toFinset = {[Mark.G]} := by
        decide
      have h3 : (Multiset.ofList [[Mark.G]]).count [Mark.G] = 1 := by decide
      simp only [calculate_entropy, get_pattern_counts, h1, Option.map_some',
        Option.some_inj, h2, Finset.sum_singleton, h3, List.length_cons,
        List.length_nil]
      norm_num)
